import Mathlib

/-!
Verification of the queue governance engine (`src/services/queueEngine.ts`)
of the frequen-c-mobile repository.

The engine is a set of pure functions over plain data. We embed the data
model and each function shallowly:

* `QueueTrack` keeps the fields the engine reads or writes (`id`,
  `addedById`, `addedAt`, `status`, `votes`, `votedBy`) plus `title` as a
  representative payload field that the engine never touches.
  `addedAt` is the numeric value `new Date(t.addedAt).getTime()` that the
  engine compares; `votes` and `votedBy` are optional exactly as in the
  TypeScript types (`votes?: number`, `votedBy?: Record<string, 1 | -1>`).
* A JavaScript object used as a vote registry is embedded as a
  key-ordered association list `List (String × Int)`; object keys are
  unique, which appears below as the `entryWF` well-formedness predicate.
* `rest.sort(comparator)` (ECMAScript sort is stable) is embedded as the
  stable `List.insertionSort` over the relation `comparator a b ≤ 0`.
-/

namespace QueueEngine

inductive RoomMode
  | campfire
  | spotlight
  | openFloor
  deriving DecidableEq, Repr

inductive TrackStatus
  | approved
  | pending
  deriving DecidableEq, Repr

structure QueueTrack where
  id : String
  title : String
  addedById : String
  addedAt : Int
  status : Option TrackStatus
  votes : Option Int
  votedBy : Option (List (String × Int))
  deriving DecidableEq, Repr, Inhabited

/-- Lookup `votedBy[userId]` on a JS object embedded as an association list:
the first binding for the key, if any. -/
def regFind (r : List (String × Int)) (u : String) : Option Int :=
  (r.find? (fun p => p.1 == u)).map Prod.snd

/-- `delete votedBy[userId]`: drop the binding(s) for the key. -/
def regErase (r : List (String × Int)) (u : String) : List (String × Int) :=
  r.filter (fun p => p.1 != u)

/-- The per-entry update closure inside `applyVote`'s `queue.map`. -/
def updateVote (trackId userId : String) (direction : Int) (t : QueueTrack) : QueueTrack :=
  if t.id == trackId then
    match regFind (t.votedBy.getD []) userId with
    | some prev =>
      if prev == direction then
        -- same direction again → undo vote; delta = -direction
        { t with votes := some (t.votes.getD 0 - direction),
                 votedBy := some (regErase (t.votedBy.getD []) userId) }
      else
        -- opposite direction → just undo current vote; delta = -prev
        { t with votes := some (t.votes.getD 0 - prev),
                 votedBy := some (regErase (t.votedBy.getD []) userId) }
    | none =>
        -- no prior vote → add; delta = direction
        { t with votes := some (t.votes.getD 0 + direction),
                 votedBy := some (t.votedBy.getD [] ++ [(userId, direction)]) }
  else t

/-- The comparator passed to `rest.sort` in `sortByVotes`:
`(b.votes ?? 0) - (a.votes ?? 0)`, ties broken by
`Date(a.addedAt).getTime() - Date(b.addedAt).getTime()`. -/
def voteCompare (a b : QueueTrack) : Int :=
  let votesDiff := b.votes.getD 0 - a.votes.getD 0
  if votesDiff ≠ 0 then votesDiff
  else a.addedAt - b.addedAt

/-- `a` sorts no later than `b` under `voteCompare`. -/
def voteLe (a b : QueueTrack) : Prop := voteCompare a b ≤ 0

instance : DecidableRel voteLe :=
  fun a b => (inferInstance : Decidable (voteCompare a b ≤ 0))

/-- `sortByVotes`: keep the first track (now playing) in place, stably sort
the rest by the comparator.  Queues of length ≤ 2 are returned as-is. -/
def sortByVotes (queue : List QueueTrack) : List QueueTrack :=
  if queue.length ≤ 2 then queue
  else
    match queue with
    | [] => []
    | nowPlaying :: rest => nowPlaying :: List.insertionSort voteLe rest

/-- `applyVote`: toggle-aware voting, re-sorting only in Open Floor mode. -/
def applyVote (queue : List QueueTrack) (trackId userId : String)
    (direction : Int) (roomMode : RoomMode) : List QueueTrack :=
  let updated := queue.map (updateVote trackId userId direction)
  if roomMode = RoomMode.openFloor then sortByVotes updated
  else updated

structure SkipResult where
  queue : List QueueTrack
  skipped : Bool
  deriving DecidableEq, Repr

/-- `skipCurrentTrack`: remove the first track; in Spotlight mode only the
host may skip. -/
def skipCurrentTrack (queue : List QueueTrack) (userId hostId : String)
    (roomMode : RoomMode) : SkipResult :=
  if queue.length = 0 then ⟨queue, false⟩
  else if roomMode = RoomMode.spotlight ∧ userId ≠ hostId then ⟨queue, false⟩
  else ⟨queue.drop 1, true⟩

structure ModerationResult where
  queue : List QueueTrack
  suggestedQueue : List QueueTrack
  deriving DecidableEq, Repr

/-- `approveTrack`: move a track from `suggestedQueue` to `queue`, setting
its status to approved. -/
def approveTrack (queue suggestedQueue : List QueueTrack) (trackId : String) :
    ModerationResult :=
  match suggestedQueue.find? (fun t => t.id == trackId) with
  | none => ⟨queue, suggestedQueue⟩
  | some track =>
      ⟨queue ++ [{ track with status := some TrackStatus.approved }],
       suggestedQueue.filter (fun t => t.id != trackId)⟩

/-- `rejectTrack`: remove a track from `suggestedQueue` entirely. -/
def rejectTrack (suggestedQueue : List QueueTrack) (trackId : String) :
    List QueueTrack :=
  suggestedQueue.filter (fun t => t.id != trackId)

inductive MoveDirection
  | up
  | down
  deriving DecidableEq, Repr

/-- The `targetIdx` computation inside `moveTrack`. -/
def moveTarget (idx : Nat) (direction : MoveDirection) : Int :=
  if direction = MoveDirection.up then (idx : Int) - 1 else (idx : Int) + 1

/-- `moveTrack`: move a track one position up or down; position 0 and its
neighborhood are protected.  The `getD` defaults are never used: both
indices are in range in the branch where they are read. -/
def moveTrack (queue : List QueueTrack) (trackId : String)
    (direction : MoveDirection) : List QueueTrack :=
  match queue.findIdx? (fun t => t.id == trackId) with
  | none => queue
  | some idx =>
    if idx = 0 then queue
    else if moveTarget idx direction ≤ 0 then queue
    else if (queue.length : Int) ≤ moveTarget idx direction then queue
    else
      (queue.set idx (queue.getD (moveTarget idx direction).toNat default)).set
        (moveTarget idx direction).toNat (queue.getD idx default)

/-- One step of the grouping loop in `interleaveRoundRobin`: file `t` into
the group keyed by its contributor, creating the group at the end on first
appearance (JS `Map` preserves insertion order). -/
def addToGroups : List (String × List QueueTrack) → QueueTrack →
    List (String × List QueueTrack)
  | [], t => [(t.addedById, [t])]
  | (k, g) :: gs, t =>
      if k = t.addedById then (k, g ++ [t]) :: gs
      else (k, g) :: addToGroups gs t

/-- Group tracks by contributor, preserving order within each group and
first-seen order of contributors. -/
def groupByContributor (queue : List QueueTrack) : List (String × List QueueTrack) :=
  queue.foldl addToGroups []

theorem length_tail_le (l : List QueueTrack) : l.tail.length ≤ l.length := by
  cases l with
  | nil => simp
  | cons a l => simp

theorem sum_map_length_tail_le (gs : List (List QueueTrack)) :
    ((gs.map List.tail).map List.length).sum ≤ (gs.map List.length).sum := by
  induction gs with
  | nil => simp
  | cons g gs ih =>
      simp only [List.map_cons, List.sum_cons]
      exact Nat.add_le_add (length_tail_le g) ih

theorem sum_map_length_tail_lt (gs : List (List QueueTrack))
    (h : ¬ (gs.all List.isEmpty = true)) :
    ((gs.map List.tail).map List.length).sum < (gs.map List.length).sum := by
  induction gs with
  | nil => simp at h
  | cons g gs ih =>
      simp only [List.all_cons, Bool.and_eq_true, not_and_or] at h
      simp only [List.map_cons, List.sum_cons]
      rcases h with h | h
      · have hg : g ≠ [] := by
          cases g with
          | nil => simp at h
          | cons a g => simp
        have : g.tail.length < g.length := by
          cases g with
          | nil => exact absurd rfl hg
          | cons a g => simp
        exact Nat.add_lt_add_of_lt_of_le this (sum_map_length_tail_le gs)
      · exact Nat.add_lt_add_of_le_of_lt (length_tail_le g) (ih h)

/-- The round-robin `while` loop: take the head of every non-empty group
(contributors in their fixed order), then repeat on the tails. -/
def roundRobin (gs : List (List QueueTrack)) : List QueueTrack :=
  if h : gs.all List.isEmpty then []
  else gs.filterMap List.head? ++ roundRobin (gs.map List.tail)
termination_by (gs.map List.length).sum
decreasing_by exact sum_map_length_tail_lt gs h

/-- `interleaveRoundRobin`: interleave tracks so contributors take turns. -/
def interleaveRoundRobin (queue : List QueueTrack) : List QueueTrack :=
  if queue.length ≤ 1 then queue
  else
    if (groupByContributor queue).length ≤ 1 then queue
    else roundRobin ((groupByContributor queue).map Prod.snd)

inductive Destination
  | queue
  | suggested
  deriving DecidableEq, Repr

structure AddTrackResult where
  queue : List QueueTrack
  suggestedQueue : List QueueTrack
  destination : Destination
  deriving DecidableEq, Repr

/-- `addTrackToQueue`: insert a track according to room mode rules. -/
def addTrackToQueue (queue suggestedQueue : List QueueTrack) (track : QueueTrack)
    (roomMode : RoomMode) (hostId : String) : AddTrackResult :=
  match roomMode with
  | RoomMode.campfire =>
      ⟨interleaveRoundRobin (queue ++ [track]), suggestedQueue, Destination.queue⟩
  | RoomMode.spotlight =>
      if track.addedById == hostId then
        ⟨queue ++ [track], suggestedQueue, Destination.queue⟩
      else
        ⟨queue, suggestedQueue ++ [{ track with status := some TrackStatus.pending }],
         Destination.suggested⟩
  | RoomMode.openFloor =>
      ⟨queue ++ [track], suggestedQueue, Destination.queue⟩

/-- The entry's tally as the engine reads it: `t.votes ?? 0`. -/
def tallyOf (t : QueueTrack) : Int := t.votes.getD 0

/-- The entry's registry as the engine reads it: `t.votedBy || {}`. -/
def regOf (t : QueueTrack) : List (String × Int) := t.votedBy.getD []

/-- The live vote of `u` on entry `t`, if any. -/
def regLookup (t : QueueTrack) (u : String) : Option Int := regFind (regOf t) u

/-- Sum of the values currently present in the registry. -/
def regSum (t : QueueTrack) : Int := ((regOf t).map Prod.snd).sum

/-- Representation invariant of a JS object registry: keys are unique. -/
def entryWF (t : QueueTrack) : Prop := ((regOf t).map Prod.fst).Nodup

/-- All fields other than `votes`/`votedBy` agree. -/
def sameNonVoteFields (a b : QueueTrack) : Prop :=
  a.id = b.id ∧ a.title = b.title ∧ a.addedById = b.addedById ∧
  a.addedAt = b.addedAt ∧ a.status = b.status

instance : DecidablePred entryWF :=
  fun t => (inferInstance : Decidable (((regOf t).map Prod.fst).Nodup))

instance (a b : QueueTrack) : Decidable (sameNonVoteFields a b) :=
  (inferInstance : Decidable (_ ∧ _ ∧ _ ∧ _ ∧ _))

/-! Concrete entries used for counterexamples and witnesses. -/

def trackA : QueueTrack := ⟨"a", "Track A", "alice", 0, none, some 0, some []⟩

def trackB : QueueTrack := ⟨"b", "Track B", "bob", 1, none, some 0, some []⟩

def trackC : QueueTrack := ⟨"c", "Track C", "carol", 2, none, some 5, some []⟩

def sampleTrack : QueueTrack := ⟨"t1", "Sample", "alice", 0, none, some 0, some []⟩

def trackOpp : QueueTrack := ⟨"t1", "Sample", "alice", 0, none, some (-1), some [("u1", -1)]⟩

/-! Registry lemmas. -/

theorem regFind_eq_none {r : List (String × Int)} {u : String} :
    regFind r u = none ↔ ∀ p ∈ r, p.1 ≠ u := by
  simp [regFind, List.find?_eq_none]

theorem regErase_eq_self {r : List (String × Int)} {u : String}
    (h : ∀ p ∈ r, p.1 ≠ u) : regErase r u = r := by
  rw [regErase, List.filter_eq_self]
  intro p hp
  simpa using h p hp

theorem regFind_erase_self (r : List (String × Int)) (u : String) :
    regFind (regErase r u) u = none := by
  rw [regFind_eq_none]
  intro p hp
  have := List.of_mem_filter hp
  simpa using this

theorem regFind_cons_self {p : String × Int} {u : String} (r : List (String × Int))
    (h : p.1 = u) : regFind (p :: r) u = some p.2 := by
  simp [regFind, List.find?_cons, h]

theorem regFind_cons_ne {p : String × Int} {u : String} (r : List (String × Int))
    (h : p.1 ≠ u) : regFind (p :: r) u = regFind r u := by
  have hv : (p.1 == u) = false := by simp [h]
  simp [regFind, List.find?_cons, hv]

theorem regErase_cons_self {p : String × Int} {u : String} (r : List (String × Int))
    (h : p.1 = u) : regErase (p :: r) u = regErase r u := by
  simp [regErase, List.filter_cons, h]

theorem regErase_cons_ne {p : String × Int} {u : String} (r : List (String × Int))
    (h : p.1 ≠ u) : regErase (p :: r) u = p :: regErase r u := by
  simp [regErase, List.filter_cons, h]

theorem regFind_erase_ne (r : List (String × Int)) {u v : String} (h : v ≠ u) :
    regFind (regErase r u) v = regFind r v := by
  induction r with
  | nil => rfl
  | cons p r ih =>
      by_cases hk : p.1 = u
      · rw [regErase_cons_self r hk, regFind_cons_ne r (hk ▸ fun hh => h hh.symm), ih]
      · rw [regErase_cons_ne r hk]
        by_cases hpv : p.1 = v
        · rw [regFind_cons_self _ hpv, regFind_cons_self r hpv]
        · rw [regFind_cons_ne _ hpv, regFind_cons_ne r hpv, ih]

theorem regFind_append (r₁ r₂ : List (String × Int)) (u : String) :
    regFind (r₁ ++ r₂) u =
      match regFind r₁ u with
      | some x => some x
      | none => regFind r₂ u := by
  induction r₁ with
  | nil => simp [regFind]
  | cons p r ih =>
      by_cases hp : p.1 = u
      · rw [List.cons_append, regFind_cons_self _ hp, regFind_cons_self r hp]
      · rw [List.cons_append, regFind_cons_ne _ hp, regFind_cons_ne r hp, ih]

theorem regFind_append_single_self (r : List (String × Int)) (u : String) (d : Int)
    (h : regFind r u = none) : regFind (r ++ [(u, d)]) u = some d := by
  rw [regFind_append, h]
  simp [regFind]

theorem regErase_append (r₁ r₂ : List (String × Int)) (u : String) :
    regErase (r₁ ++ r₂) u = regErase r₁ u ++ regErase r₂ u := by
  simp [regErase]

theorem regSum_list_erase (r : List (String × Int)) (u : String) (p : Int)
    (hnd : (r.map Prod.fst).Nodup) (hf : regFind r u = some p) :
    ((regErase r u).map Prod.snd).sum = (r.map Prod.snd).sum - p := by
  induction r with
  | nil => simp [regFind] at hf
  | cons q r ih =>
      simp only [List.map_cons, List.nodup_cons] at hnd
      by_cases hq : q.1 = u
      · rw [regFind_cons_self r hq] at hf
        cases hf
        have herase : regErase (q :: r) u = r := by
          have h1 : ∀ x ∈ r, x.1 ≠ u := by
            intro x hx hxu
            apply hnd.1
            rw [hq, ← hxu]
            exact List.mem_map_of_mem Prod.fst hx
          rw [regErase_cons_self r hq]
          exact regErase_eq_self h1
        rw [herase]
        simp only [List.map_cons, List.sum_cons]
        ring
      · rw [regFind_cons_ne r hq] at hf
        rw [regErase_cons_ne r hq]
        simp only [List.map_cons, List.sum_cons, ih hnd.2 hf]
        ring

/-! Structural lemmas about `updateVote`, `sortByVotes` and `applyVote`. -/

theorem updateVote_id_ne {t : QueueTrack} {trackId : String} (userId : String)
    (direction : Int) (h : t.id ≠ trackId) :
    updateVote trackId userId direction t = t := by
  have : (t.id == trackId) = false := by simp [h]
  simp [updateVote, this]

theorem updateVote_frame (trackId userId : String) (direction : Int) (t : QueueTrack) :
    sameNonVoteFields (updateVote trackId userId direction t) t := by
  unfold sameNonVoteFields updateVote
  split
  · split
    · split <;> exact ⟨rfl, rfl, rfl, rfl, rfl⟩
    · exact ⟨rfl, rfl, rfl, rfl, rfl⟩
  · exact ⟨rfl, rfl, rfl, rfl, rfl⟩

theorem updateVote_add {t : QueueTrack} {trackId : String} (userId : String)
    (direction : Int) (hid : t.id = trackId) (hnone : regLookup t userId = none) :
    updateVote trackId userId direction t =
      { t with votes := some (tallyOf t + direction),
               votedBy := some (regOf t ++ [(userId, direction)]) } := by
  have hb : (t.id == trackId) = true := by simp [hid]
  unfold updateVote
  rw [if_pos hb]
  have h1 : regFind (t.votedBy.getD []) userId = none := hnone
  rw [h1]
  rfl

theorem updateVote_same {t : QueueTrack} {trackId : String} (userId : String)
    (direction : Int) (hid : t.id = trackId)
    (hprev : regLookup t userId = some direction) :
    updateVote trackId userId direction t =
      { t with votes := some (tallyOf t - direction),
               votedBy := some (regErase (regOf t) userId) } := by
  have hb : (t.id == trackId) = true := by simp [hid]
  unfold updateVote
  rw [if_pos hb]
  have h1 : regFind (t.votedBy.getD []) userId = some direction := hprev
  rw [h1]
  simp [tallyOf, regOf]

theorem updateVote_opp {t : QueueTrack} {trackId : String} (userId : String)
    {direction p : Int} (hid : t.id = trackId)
    (hprev : regLookup t userId = some p) (hne : p ≠ direction) :
    updateVote trackId userId direction t =
      { t with votes := some (tallyOf t - p),
               votedBy := some (regErase (regOf t) userId) } := by
  have hb : (t.id == trackId) = true := by simp [hid]
  unfold updateVote
  rw [if_pos hb]
  have h1 : regFind (t.votedBy.getD []) userId = some p := hprev
  rw [h1]
  simp [hne, tallyOf, regOf]

theorem sortByVotes_perm (q : List QueueTrack) : (sortByVotes q).Perm q := by
  unfold sortByVotes
  split
  · exact List.Perm.refl q
  · cases q with
    | nil => exact List.Perm.refl _
    | cons a rest => exact List.Perm.cons a (List.perm_insertionSort voteLe rest)

theorem sortByVotes_head (q : List QueueTrack) : (sortByVotes q).head? = q.head? := by
  unfold sortByVotes
  split
  · rfl
  · cases q with
    | nil => rfl
    | cons a rest => rfl

theorem applyVote_eq_map {m : RoomMode} (q : List QueueTrack) (trackId userId : String)
    (direction : Int) (hm : m ≠ RoomMode.openFloor) :
    applyVote q trackId userId direction m = q.map (updateVote trackId userId direction) := by
  simp [applyVote, hm]

theorem applyVote_eq_sort (q : List QueueTrack) (trackId userId : String)
    (direction : Int) :
    applyVote q trackId userId direction RoomMode.openFloor =
      sortByVotes (q.map (updateVote trackId userId direction)) := by
  simp [applyVote]

theorem applyVote_perm_map (q : List QueueTrack) (trackId userId : String)
    (direction : Int) (m : RoomMode) :
    (applyVote q trackId userId direction m).Perm
      (q.map (updateVote trackId userId direction)) := by
  by_cases hm : m = RoomMode.openFloor
  · rw [hm, applyVote_eq_sort]
    exact sortByVotes_perm _
  · rw [applyVote_eq_map q trackId userId direction hm]

theorem mem_applyVote_of_mem {q : List QueueTrack} {e : QueueTrack}
    (trackId userId : String) (direction : Int) (m : RoomMode) (he : e ∈ q) :
    updateVote trackId userId direction e ∈ applyVote q trackId userId direction m :=
  ((applyVote_perm_map q trackId userId direction m).mem_iff).mpr
    (List.mem_map_of_mem _ he)

theorem mem_applyVote_inv {q : List QueueTrack} {e : QueueTrack}
    {trackId userId : String} {direction : Int} {m : RoomMode}
    (he : e ∈ applyVote q trackId userId direction m) :
    ∃ t ∈ q, e = updateVote trackId userId direction t := by
  have := ((applyVote_perm_map q trackId userId direction m).mem_iff).mp he
  obtain ⟨t, ht, hte⟩ := List.mem_map.mp this
  exact ⟨t, ht, hte.symm⟩

theorem sameNonVoteFields_trans {a b c : QueueTrack} (h1 : sameNonVoteFields a b)
    (h2 : sameNonVoteFields b c) : sameNonVoteFields a c :=
  ⟨h1.1.trans h2.1, h1.2.1.trans h2.2.1, h1.2.2.1.trans h2.2.2.1,
   h1.2.2.2.1.trans h2.2.2.2.1, h1.2.2.2.2.trans h2.2.2.2.2⟩

theorem updateVote_twice_none {t : QueueTrack} {tid u : String} {d : Int}
    (hid : t.id = tid) (hnone : regLookup t u = none) :
    updateVote tid u d (updateVote tid u d t) =
      { t with votes := some (tallyOf t + d - d), votedBy := some (regOf t) } := by
  rw [updateVote_add u d hid hnone]
  set t1 : QueueTrack :=
    { t with votes := some (tallyOf t + d), votedBy := some (regOf t ++ [(u, d)]) } with ht1
  have hid1 : t1.id = tid := hid
  have hl1 : regLookup t1 u = some d :=
    regFind_append_single_self (regOf t) u d hnone
  rw [updateVote_same u d hid1 hl1]
  have h2 : regOf t1 = regOf t ++ [(u, d)] := rfl
  rw [h2, regErase_append, regErase_eq_self (regFind_eq_none.mp hnone)]
  simp [regErase]
  show tallyOf t + d - d = tallyOf t
  omega

theorem updateVote_twice_same {t : QueueTrack} {tid u : String} {d : Int}
    (hid : t.id = tid) (hsame : regLookup t u = some d) :
    updateVote tid u d (updateVote tid u d t) =
      { t with votes := some (tallyOf t - d + d),
               votedBy := some (regErase (regOf t) u ++ [(u, d)]) } := by
  rw [updateVote_same u d hid hsame]
  set t1 : QueueTrack :=
    { t with votes := some (tallyOf t - d), votedBy := some (regErase (regOf t) u) } with ht1
  have hid1 : t1.id = tid := hid
  have hl1 : regLookup t1 u = none := regFind_erase_self (regOf t) u
  rw [updateVote_add u d hid1 hl1]
  rfl

theorem map_getD_lt (f : QueueTrack → QueueTrack) (q : List QueueTrack) (i : Nat)
    (h : i < q.length) :
    (q.map f).getD i default = f (q.getD i default) := by
  rw [List.getD_eq_getElem _ _ (by simpa using h), List.getD_eq_getElem _ _ h,
    List.getElem_map]

theorem length_filter_bne_add_countP (sq : List QueueTrack) (tid : String) :
    (rejectTrack sq tid).length + sq.countP (fun t => t.id == tid) =
      sq.length := by
  unfold rejectTrack
  induction sq with
  | nil => rfl
  | cons a l ih =>
      by_cases h : a.id = tid
      · rw [List.filter_cons, List.countP_cons, if_neg (by simp [h]),
          if_pos (by simp [h])]
        simp only [List.length_cons]
        omega
      · rw [List.filter_cons, List.countP_cons, if_pos (by simp [h]),
          if_neg (by simp [h])]
        simp only [List.length_cons]
        omega

/-! Claim theorems. -/

/-- Claim C5, counterexample: on the empty queue even the authority's skip in
Curated (spotlight) mode yields `skipped = false`, so "skip by the authority
always yields skipped=true" fails for the empty queue. -/
theorem skip_spotlight_empty_refused :
    (skipCurrentTrack [] "host" "host" RoomMode.spotlight).skipped ≠ true := by
  decide

/-- Claim C5 (amended): in Curated (spotlight) mode a non-authority skip is
always refused with the queue unchanged, and an authority skip on a
*non-empty* queue always succeeds, removing exactly the front entry. -/
theorem skip_spotlight_authorization (q : List QueueTrack) (actorId hostId : String) :
    (actorId ≠ hostId →
      skipCurrentTrack q actorId hostId RoomMode.spotlight = ⟨q, false⟩) ∧
    (q ≠ [] →
      skipCurrentTrack q hostId hostId RoomMode.spotlight = ⟨q.drop 1, true⟩ ∧
      (skipCurrentTrack q hostId hostId RoomMode.spotlight).queue.length + 1 =
        q.length) := by
  constructor
  · intro hne
    unfold skipCurrentTrack
    by_cases h0 : q.length = 0
    · rw [if_pos h0]
    · rw [if_neg h0, if_pos ⟨rfl, hne⟩]
  · intro hq
    have h0 : ¬ q.length = 0 := by simpa using hq
    constructor
    · unfold skipCurrentTrack
      rw [if_neg h0, if_neg (by simp)]
    · unfold skipCurrentTrack
      rw [if_neg h0, if_neg (by simp)]
      show (q.drop 1).length + 1 = q.length
      rw [List.length_drop]
      omega

theorem skip_spotlight_authorization_witness :
    (skipCurrentTrack [trackA] "guest" "host" RoomMode.spotlight = ⟨[trackA], false⟩) ∧
    (skipCurrentTrack [trackA] "host" "host" RoomMode.spotlight =
        ⟨[trackA].drop 1, true⟩ ∧
      (skipCurrentTrack [trackA] "host" "host" RoomMode.spotlight).queue.length + 1 =
        [trackA].length) :=
  ⟨(skip_spotlight_authorization [trackA] "guest" "host").1 (by decide),
   (skip_spotlight_authorization [trackA] "guest" "host").2 (by decide)⟩

def dupX : QueueTrack := ⟨"d", "X", "alice", 0, none, some 0, some []⟩

def dupY : QueueTrack := ⟨"d", "Y", "bob", 1, none, some 0, some []⟩

/-- Claim C10: when the suggestion list holds several entries with the same
track id, `rejectTrack` removes every matching entry, and `approveTrack`
appends only the *first* matching entry (marked approved) to the queue while
removing every matching entry from the suggestion list — so at least two
suggestion entries are affected by one call. -/
theorem moderation_duplicate_ids (q sq : List QueueTrack) (tid : String)
    (e : QueueTrack)
    (hfind : sq.find? (fun t => t.id == tid) = some e)
    (hdup : 2 ≤ sq.countP (fun t => t.id == tid)) :
    (∀ t ∈ rejectTrack sq tid, t.id ≠ tid) ∧
    (rejectTrack sq tid).length + sq.countP (fun t => t.id == tid) = sq.length ∧
    (rejectTrack sq tid).length + 2 ≤ sq.length ∧
    (approveTrack q sq tid).queue =
      q ++ [{ e with status := some TrackStatus.approved }] ∧
    (approveTrack q sq tid).suggestedQueue = rejectTrack sq tid := by
  have h2 := length_filter_bne_add_countP sq tid
  refine ⟨?_, h2, by omega, ?_, ?_⟩
  · intro t ht
    have := (List.mem_filter.mp ht).2
    simpa using this
  · show (approveTrack q sq tid).queue = _
    unfold approveTrack
    rw [hfind]
  · show (approveTrack q sq tid).suggestedQueue = _
    unfold approveTrack
    rw [hfind]
    rfl

theorem moderation_duplicate_ids_witness :
    (∀ t ∈ rejectTrack [dupX, trackB, dupY] "d", t.id ≠ "d") ∧
    (rejectTrack [dupX, trackB, dupY] "d").length +
      ([dupX, trackB, dupY].countP (fun t => t.id == "d")) =
      ([dupX, trackB, dupY] : List QueueTrack).length ∧
    (rejectTrack [dupX, trackB, dupY] "d").length + 2 ≤
      ([dupX, trackB, dupY] : List QueueTrack).length ∧
    (approveTrack [trackA] [dupX, trackB, dupY] "d").queue =
      [trackA] ++ [{ dupX with status := some TrackStatus.approved }] ∧
    (approveTrack [trackA] [dupX, trackB, dupY] "d").suggestedQueue =
      rejectTrack [dupX, trackB, dupY] "d" :=
  moderation_duplicate_ids [trackA] [dupX, trackB, dupY] "d" dupX
    (by decide) (by decide)

/-- Claim C8: in EqualTurns (campfire) and Curated (spotlight) modes a vote
never reorders the queue: the result has the same length, every position
keeps its entry up to the vote update (non-vote fields unchanged), and
entries other than the voted track are untouched. -/
theorem applyVote_no_reorder (q : List QueueTrack) (tid u : String) (d : Int)
    (m : RoomMode) (hm : m = RoomMode.campfire ∨ m = RoomMode.spotlight) :
    (applyVote q tid u d m).length = q.length ∧
    ∀ i, i < q.length →
      sameNonVoteFields ((applyVote q tid u d m).getD i default) (q.getD i default) ∧
      ((q.getD i default).id ≠ tid →
        (applyVote q tid u d m).getD i default = q.getD i default) := by
  have hm' : m ≠ RoomMode.openFloor := by
    rcases hm with h | h <;> subst h <;> simp
  rw [applyVote_eq_map q tid u d hm']
  refine ⟨List.length_map _ _, ?_⟩
  intro i hi
  rw [map_getD_lt _ q i hi]
  exact ⟨updateVote_frame tid u d _, fun hne => updateVote_id_ne u d hne⟩

theorem applyVote_no_reorder_witness :
    (applyVote [trackA, trackB] "a" "u1" 1 RoomMode.campfire).length =
      ([trackA, trackB] : List QueueTrack).length ∧
    (sameNonVoteFields
        ((applyVote [trackA, trackB] "a" "u1" 1 RoomMode.campfire).getD 1 default)
        (([trackA, trackB] : List QueueTrack).getD 1 default) ∧
      ((([trackA, trackB] : List QueueTrack).getD 1 default).id ≠ "a" →
        (applyVote [trackA, trackB] "a" "u1" 1 RoomMode.campfire).getD 1 default =
          ([trackA, trackB] : List QueueTrack).getD 1 default)) :=
  ⟨(applyVote_no_reorder [trackA, trackB] "a" "u1" 1 RoomMode.campfire (Or.inl rfl)).1,
   (applyVote_no_reorder [trackA, trackB] "a" "u1" 1 RoomMode.campfire (Or.inl rfl)).2
      1 (by decide)⟩

/-- Claim C2: an opposite prior vote is cancelled only: the registry entry is
removed, the prior value is subtracted from the tally, and the new direction
is *not* applied.  Concretely, voting +1 then -1 from a clean state restores
the entry exactly. -/
theorem applyVote_opposite_cancels (q : List QueueTrack) (tid u : String)
    (d p : Int) (m : RoomMode) (e : QueueTrack) (he : e ∈ q) (hid : e.id = tid)
    (hd : d = 1 ∨ d = -1) (hp : regLookup e u = some p) (hopp : p = -d) :
    (∃ e' ∈ applyVote q tid u d m, sameNonVoteFields e' e ∧
      regLookup e' u = none ∧ tallyOf e' = tallyOf e - p) ∧
    (∀ m' : RoomMode,
      applyVote (applyVote [sampleTrack] "t1" "u1" 1 m') "t1" "u1" (-1) m' =
        [sampleTrack]) := by
  constructor
  · have hne : p ≠ d := by rcases hd with h | h <;> subst h <;> omega
    refine ⟨updateVote tid u d e, mem_applyVote_of_mem tid u d m he,
      updateVote_frame tid u d e, ?_, ?_⟩
    · rw [updateVote_opp u hid hp hne]
      show regFind (regErase (regOf e) u) u = none
      exact regFind_erase_self _ _
    · rw [updateVote_opp u hid hp hne]
      rfl
  · intro m'
    cases m' <;> decide

theorem applyVote_opposite_cancels_witness :
    (∃ e' ∈ applyVote [trackOpp] "t1" "u1" 1 RoomMode.campfire,
      sameNonVoteFields e' trackOpp ∧
      regLookup e' "u1" = none ∧ tallyOf e' = tallyOf trackOpp - (-1)) ∧
    (∀ m' : RoomMode,
      applyVote (applyVote [sampleTrack] "t1" "u1" 1 m') "t1" "u1" (-1) m' =
        [sampleTrack]) :=
  applyVote_opposite_cancels [trackOpp] "t1" "u1" 1 (-1) RoomMode.campfire trackOpp
    (by decide) (by decide) (Or.inl rfl) (by decide) (by decide)

/-- Claim C9, counterexample: with an opposite prior vote on the entry,
applying the same `(trackId, voterId, direction)` vote twice does *not*
return the entry to its pre-vote tally: the double press flips the vote. -/
theorem applyVote_double_vote_flips :
    tallyOf ((applyVote (applyVote [trackOpp] "t1" "u1" 1 RoomMode.campfire)
        "t1" "u1" 1 RoomMode.campfire).getD 0 default) ≠ tallyOf trackOpp := by
  decide

/-- Claim C9 (amended): provided the voter's prior registry entry on the
track is absent or already equals the direction, applying the same vote
twice in a row returns the entry to its pre-vote tally and registry mapping
(full retraction). -/
theorem applyVote_toggle_retraction (q : List QueueTrack) (tid u : String)
    (d : Int) (m : RoomMode) (e : QueueTrack) (he : e ∈ q) (hid : e.id = tid)
    (hprior : regLookup e u = none ∨ regLookup e u = some d) :
    ∃ e' ∈ applyVote (applyVote q tid u d m) tid u d m,
      sameNonVoteFields e' e ∧ tallyOf e' = tallyOf e ∧
      ∀ v, regLookup e' v = regLookup e v := by
  have hmem : updateVote tid u d (updateVote tid u d e) ∈
      applyVote (applyVote q tid u d m) tid u d m :=
    mem_applyVote_of_mem tid u d m (mem_applyVote_of_mem tid u d m he)
  have hframe : sameNonVoteFields (updateVote tid u d (updateVote tid u d e)) e :=
    sameNonVoteFields_trans (updateVote_frame tid u d _) (updateVote_frame tid u d e)
  refine ⟨updateVote tid u d (updateVote tid u d e), hmem, hframe, ?_, ?_⟩
  · rcases hprior with hnone | hsame
    · rw [updateVote_twice_none hid hnone]
      show (some (tallyOf e + d - d)).getD 0 = tallyOf e
      simp
    · rw [updateVote_twice_same hid hsame]
      show (some (tallyOf e - d + d)).getD 0 = tallyOf e
      simp
  · intro v
    rcases hprior with hnone | hsame
    · rw [updateVote_twice_none hid hnone]
      rfl
    · rw [updateVote_twice_same hid hsame]
      show regFind (regErase (regOf e) u ++ [(u, d)]) v = regFind (regOf e) v
      by_cases hv : v = u
      · subst hv
        rw [regFind_append_single_self _ _ _ (regFind_erase_self (regOf e) v)]
        exact hsame.symm
      · rw [regFind_append, regFind_erase_ne _ hv]
        cases hfv : regFind (regOf e) v with
        | some x => rfl
        | none =>
            show regFind [(u, d)] v = none
            rw [regFind_cons_ne _ (fun hh => hv hh.symm)]
            rfl

theorem applyVote_toggle_retraction_witness :
    ∃ e' ∈ applyVote (applyVote [sampleTrack] "t1" "u1" 1 RoomMode.openFloor)
        "t1" "u1" 1 RoomMode.openFloor,
      sameNonVoteFields e' sampleTrack ∧ tallyOf e' = tallyOf sampleTrack ∧
      ∀ v, regLookup e' v = regLookup sampleTrack v :=
  applyVote_toggle_retraction [sampleTrack] "t1" "u1" 1 RoomMode.openFloor
    sampleTrack (by decide) (by decide) (Or.inl (by decide))

/-- Claim C1, counterexample: with a trackId absent from the queue,
`applyVote` in Democratic (openFloor) mode still re-sorts the queue, so the
result is not structurally equivalent to the input (order changes). -/
theorem applyVote_unknown_track_cex :
    applyVote [trackA, trackB, trackC] "zzz" "u1" 1 RoomMode.openFloor ≠
      [trackA, trackB, trackC] := by
  decide

/-- Claim C1 (amended): with a trackId absent from the queue `applyVote`
leaves every entry unchanged and never throws; in EqualTurns and Curated
modes the result is the input itself, while in Democratic (openFloor) mode
the result is the vote-resort of the unchanged entries — a permutation of
the input. -/
theorem applyVote_unknown_track (q : List QueueTrack) (tid u : String) (d : Int)
    (m : RoomMode) (h : ∀ t ∈ q, t.id ≠ tid) :
    (m ≠ RoomMode.openFloor → applyVote q tid u d m = q) ∧
    (m = RoomMode.openFloor → applyVote q tid u d m = sortByVotes q) ∧
    (applyVote q tid u d m).Perm q := by
  have hmap : q.map (updateVote tid u d) = q := by
    calc q.map (updateVote tid u d)
        = q.map id := List.map_congr_left (fun t ht => updateVote_id_ne u d (h t ht))
      _ = q := List.map_id q
  refine ⟨?_, ?_, ?_⟩
  · intro hm
    rw [applyVote_eq_map q tid u d hm, hmap]
  · intro hm
    subst hm
    rw [applyVote_eq_sort, hmap]
  · by_cases hm : m = RoomMode.openFloor
    · subst hm
      rw [applyVote_eq_sort, hmap]
      exact sortByVotes_perm q
    · rw [applyVote_eq_map q tid u d hm, hmap]

theorem applyVote_unknown_track_witness :
    (RoomMode.campfire ≠ RoomMode.openFloor →
      applyVote [trackA, trackB, trackC] "zzz" "u1" 1 RoomMode.campfire =
        [trackA, trackB, trackC]) ∧
    (RoomMode.campfire = RoomMode.openFloor →
      applyVote [trackA, trackB, trackC] "zzz" "u1" 1 RoomMode.campfire =
        sortByVotes [trackA, trackB, trackC]) ∧
    (applyVote [trackA, trackB, trackC] "zzz" "u1" 1 RoomMode.campfire).Perm
      [trackA, trackB, trackC] :=
  applyVote_unknown_track [trackA, trackB, trackC] "zzz" "u1" 1 RoomMode.campfire
    (by decide)

/-- Claim C7: the invariant "voteTally equals the sum of the values present
in voteRegistry" is preserved by `applyVote` in every mode (on registries
with unique keys, as JS objects guarantee). -/
theorem applyVote_tally_eq_regSum (q : List QueueTrack) (tid u : String)
    (d : Int) (m : RoomMode)
    (h : ∀ t ∈ q, entryWF t ∧ tallyOf t = regSum t) :
    ∀ e ∈ applyVote q tid u d m, tallyOf e = regSum e := by
  intro e he
  obtain ⟨t, ht, rfl⟩ := mem_applyVote_inv he
  obtain ⟨hwf, hsum⟩ := h t ht
  by_cases hid : t.id = tid
  · cases hfv : regLookup t u with
    | none =>
        rw [updateVote_add u d hid hfv]
        show (some (tallyOf t + d)).getD 0 =
          (((regOf t ++ [(u, d)]).map Prod.snd)).sum
        rw [Option.getD_some, List.map_append, List.sum_append]
        simp only [List.map_cons, List.map_nil, List.sum_cons, List.sum_nil]
        unfold regSum at hsum
        omega
    | some p =>
        have hsub : ((regErase (regOf t) u).map Prod.snd).sum =
            ((regOf t).map Prod.snd).sum - p :=
          regSum_list_erase (regOf t) u p hwf hfv
        by_cases hpd : p = d
        · subst hpd
          rw [updateVote_same u p hid hfv]
          show (some (tallyOf t - p)).getD 0 =
            ((regErase (regOf t) u).map Prod.snd).sum
          rw [Option.getD_some, hsub]
          unfold regSum at hsum
          omega
        · rw [updateVote_opp u hid hfv hpd]
          show (some (tallyOf t - p)).getD 0 =
            ((regErase (regOf t) u).map Prod.snd).sum
          rw [Option.getD_some, hsub]
          unfold regSum at hsum
          omega
  · rw [updateVote_id_ne u d hid]
    exact hsum

theorem applyVote_tally_eq_regSum_witness :
    tallyOf ((applyVote [sampleTrack, trackOpp] "t1" "u1" 1
        RoomMode.openFloor).getD 0 default) =
      regSum ((applyVote [sampleTrack, trackOpp] "t1" "u1" 1
        RoomMode.openFloor).getD 0 default) :=
  applyVote_tally_eq_regSum [sampleTrack, trackOpp] "t1" "u1" 1 RoomMode.openFloor
    (by decide) _ (by decide)

/-! Order-theoretic facts about the vote comparator. -/

theorem voteLe_iff (a b : QueueTrack) :
    voteLe a b ↔
      (tallyOf b < tallyOf a ∨ (tallyOf a = tallyOf b ∧ a.addedAt ≤ b.addedAt)) := by
  simp only [voteLe, voteCompare, tallyOf]
  split <;> omega

instance : IsTotal QueueTrack voteLe :=
  ⟨fun a b => by rw [voteLe_iff, voteLe_iff]; omega⟩

instance : IsTrans QueueTrack voteLe :=
  ⟨fun a b c hab hbc => by rw [voteLe_iff] at hab hbc ⊢; omega⟩

theorem sortByVotes_cons_of_long (a : QueueTrack) (rest : List QueueTrack)
    (h : ¬ (a :: rest).length ≤ 2) :
    sortByVotes (a :: rest) = a :: List.insertionSort voteLe rest := by
  unfold sortByVotes
  rw [if_neg h]

/-- Claim C4, counterexample: when the vote targets the now-playing entry in
Democratic (openFloor) mode, the entry at position 0 is *not* unchanged —
its tally is updated in place. -/
theorem applyVote_openFloor_pos0_cex :
    (applyVote [sampleTrack] "t1" "u1" 1 RoomMode.openFloor).getD 0 default ≠
      sampleTrack := by
  decide

/-- Claim C4 (amended): in Democratic (openFloor) mode, `applyVote` keeps the
position-0 occupant (up to the in-place vote update of that entry), and the
remaining entries at positions `1 ≤ i < j` are ordered by descending tally
with ties broken by ascending `addedAt`. -/
theorem applyVote_openFloor_sorted (q : List QueueTrack) (tid u : String) (d : Int) :
    (applyVote q tid u d RoomMode.openFloor).head? =
      q.head?.map (updateVote tid u d) ∧
    ∀ i j : Nat, 1 ≤ i → i < j →
      j < (applyVote q tid u d RoomMode.openFloor).length →
      tallyOf ((applyVote q tid u d RoomMode.openFloor).getD i default) ≥
        tallyOf ((applyVote q tid u d RoomMode.openFloor).getD j default) ∧
      (tallyOf ((applyVote q tid u d RoomMode.openFloor).getD i default) =
          tallyOf ((applyVote q tid u d RoomMode.openFloor).getD j default) →
        ((applyVote q tid u d RoomMode.openFloor).getD i default).addedAt ≤
          ((applyVote q tid u d RoomMode.openFloor).getD j default).addedAt) := by
  rw [applyVote_eq_sort]
  constructor
  · rw [sortByVotes_head, List.head?_map]
  · set l := q.map (updateVote tid u d) with hl
    intro i j hi hij hj
    suffices hle : voteLe ((sortByVotes l).getD i default)
        ((sortByVotes l).getD j default) by
      have hc := (voteLe_iff _ _).mp hle
      exact ⟨by omega, fun heq => by omega⟩
    by_cases hlen : l.length ≤ 2
    · exfalso
      have hpl : (sortByVotes l).length = l.length :=
        (sortByVotes_perm l).length_eq
      omega
    · cases hl' : l with
      | nil => rw [hl'] at hlen; simp at hlen
      | cons a rest =>
          rw [hl'] at hj hlen
          rw [sortByVotes_cons_of_long a rest hlen] at hj ⊢
          obtain ⟨i', rfl⟩ : ∃ i', i = i' + 1 := ⟨i - 1, by omega⟩
          obtain ⟨j', rfl⟩ : ∃ j', j = j' + 1 := ⟨j - 1, by omega⟩
          rw [List.getD_cons_succ, List.getD_cons_succ]
          have hj' : j' < (List.insertionSort voteLe rest).length := by
            simp only [List.length_cons] at hj
            omega
          have hi' : i' < (List.insertionSort voteLe rest).length := by omega
          have hsorted : (List.insertionSort voteLe rest).Pairwise voteLe :=
            List.sorted_insertionSort voteLe rest
          have := List.pairwise_iff_get.mp hsorted ⟨i', hi'⟩ ⟨j', hj'⟩
            (by simp only [Fin.mk_lt_mk]; omega)
          rw [List.getD_eq_getElem _ _ hi', List.getD_eq_getElem _ _ hj']
          simpa [List.get_eq_getElem] using this

/-! Round-robin interleave: reference algorithm and correctness. -/

/-- Modelled from the spec (§4.2): partition the queue into ordered
per-contributor groups (first-seen order defines group order); if fewer than
two contributors exist, return the input unchanged; otherwise repeatedly
cycle through the groups in their fixed order, each cycle pulling the oldest
remaining entry from each non-empty group. -/
def interleaveSpec (queue : List QueueTrack) : List QueueTrack :=
  if (groupByContributor queue).length < 2 then queue
  else roundRobin ((groupByContributor queue).map Prod.snd)

theorem roundRobin_nil_of_all_empty {gs : List (List QueueTrack)}
    (h : gs.all List.isEmpty = true) : roundRobin gs = [] := by
  rw [roundRobin.eq_def, dif_pos h]

theorem roundRobin_step {gs : List (List QueueTrack)}
    (h : ¬ gs.all List.isEmpty = true) :
    roundRobin gs = gs.filterMap List.head? ++ roundRobin (gs.map List.tail) := by
  rw [roundRobin.eq_def, dif_neg h]

theorem flatten_eq_nil_of_all_empty {gs : List (List QueueTrack)}
    (h : gs.all List.isEmpty = true) : gs.flatten = [] := by
  induction gs with
  | nil => rfl
  | cons g gs ih =>
      simp only [List.all_cons, Bool.and_eq_true] at h
      have hg : g = [] := by
        cases g with
        | nil => rfl
        | cons a g => simp at h
      rw [List.flatten_cons, hg, List.nil_append]
      exact ih h.2

theorem heads_tails_flatten_perm (gs : List (List QueueTrack)) :
    (gs.filterMap List.head? ++ (gs.map List.tail).flatten).Perm gs.flatten := by
  induction gs with
  | nil => exact List.Perm.refl _
  | cons g gs ih =>
      cases g with
      | nil =>
          simpa using ih
      | cons a g' =>
          have e0 : ((a :: g') :: gs).filterMap List.head? =
              a :: gs.filterMap List.head? := rfl
          rw [e0, List.map_cons, List.flatten_cons, List.tail_cons,
            List.flatten_cons, List.cons_append]
          apply List.Perm.cons a
          have h1 : (gs.filterMap List.head? ++ (g' ++ (gs.map List.tail).flatten)).Perm
              (g' ++ (gs.filterMap List.head? ++ (gs.map List.tail).flatten)) := by
            rw [← List.append_assoc, ← List.append_assoc]
            exact List.Perm.append_right _ List.perm_append_comm
          exact h1.trans (List.Perm.append_left g' ih)

theorem roundRobin_perm_flatten (gs : List (List QueueTrack)) :
    (roundRobin gs).Perm gs.flatten := by
  by_cases h : gs.all List.isEmpty = true
  · rw [roundRobin_nil_of_all_empty h, flatten_eq_nil_of_all_empty h]
  · rw [roundRobin_step h]
    have ih := roundRobin_perm_flatten (gs.map List.tail)
    exact (List.Perm.append_left _ ih).trans (heads_tails_flatten_perm gs)
termination_by (gs.map List.length).sum
decreasing_by exact sum_map_length_tail_lt gs h

theorem addToGroups_flatten_perm (gs : List (String × List QueueTrack))
    (t : QueueTrack) :
    (((addToGroups gs t).map Prod.snd).flatten).Perm
      (t :: (gs.map Prod.snd).flatten) := by
  induction gs with
  | nil => simp [addToGroups]
  | cons pg gs ih =>
      obtain ⟨k, g⟩ := pg
      by_cases hk : k = t.addedById
      · simp only [addToGroups, if_pos hk, List.map_cons, List.flatten_cons]
        rw [List.append_assoc]
        exact List.perm_middle
      · simp only [addToGroups, if_neg hk, List.map_cons, List.flatten_cons]
        exact (List.Perm.append_left g ih).trans List.perm_middle

theorem foldl_groups_flatten_perm (q : List QueueTrack) :
    ∀ acc, (((q.foldl addToGroups acc).map Prod.snd).flatten).Perm
      ((acc.map Prod.snd).flatten ++ q) := by
  induction q with
  | nil => intro acc; simp
  | cons t q ih =>
      intro acc
      rw [List.foldl_cons]
      have h1 := ih (addToGroups acc t)
      have h2 := addToGroups_flatten_perm acc t
      have h3 : (((addToGroups acc t).map Prod.snd).flatten ++ q).Perm
          ((t :: (acc.map Prod.snd).flatten) ++ q) := List.Perm.append_right q h2
      have h5 : (t :: ((acc.map Prod.snd).flatten ++ q)).Perm
          ((acc.map Prod.snd).flatten ++ t :: q) := List.perm_middle.symm
      exact h1.trans (h3.trans h5)

theorem groupByContributor_flatten_perm (q : List QueueTrack) :
    (((groupByContributor q).map Prod.snd).flatten).Perm q := by
  have h := foldl_groups_flatten_perm q []
  simpa [groupByContributor] using h

/-- Every entry filed in a group carries that group's contributor key. -/
def GroupsHom (gs : List (String × List QueueTrack)) : Prop :=
  ∀ pg ∈ gs, ∀ t ∈ pg.2, t.addedById = pg.1

theorem groupsHom_addToGroups (t : QueueTrack) :
    ∀ gs, GroupsHom gs → GroupsHom (addToGroups gs t) := by
  intro gs
  induction gs with
  | nil =>
      intro _ pg hpg t' ht'
      simp only [addToGroups, List.mem_singleton] at hpg
      subst hpg
      simp only [List.mem_singleton] at ht'
      subst ht'
      rfl
  | cons qg gs ih =>
      obtain ⟨k, g⟩ := qg
      intro hg
      have hg_head : ∀ t' ∈ g, t'.addedById = k :=
        fun t' ht' => hg (k, g) (List.mem_cons_self _ _) t' ht'
      have hg_tail : GroupsHom gs := fun pg hpg => hg pg (List.mem_cons_of_mem _ hpg)
      by_cases hk : k = t.addedById
      · intro pg hpg t' ht'
        simp only [addToGroups, if_pos hk] at hpg
        rcases List.mem_cons.mp hpg with h | h
        · subst h
          rcases List.mem_append.mp ht' with h2 | h2
          · exact hg_head t' h2
          · simp only [List.mem_singleton] at h2
            subst h2
            exact hk.symm
        · exact hg_tail pg h t' ht'
      · intro pg hpg t' ht'
        simp only [addToGroups, if_neg hk] at hpg
        rcases List.mem_cons.mp hpg with h | h
        · subst h
          exact hg_head t' ht'
        · exact ih hg_tail pg h t' ht'

theorem keys_addToGroups (t : QueueTrack) :
    ∀ gs, (addToGroups gs t).map Prod.fst =
      if t.addedById ∈ gs.map Prod.fst then gs.map Prod.fst
      else gs.map Prod.fst ++ [t.addedById] := by
  intro gs
  induction gs with
  | nil => simp [addToGroups]
  | cons pg gs ih =>
      obtain ⟨k, g⟩ := pg
      by_cases hk : k = t.addedById
      · subst hk
        simp [addToGroups]
      · simp only [addToGroups, if_neg hk, List.map_cons, ih]
        by_cases hmem : t.addedById ∈ gs.map Prod.fst
        · rw [if_pos hmem, if_pos (by simp [hmem])]
        · rw [if_neg hmem, if_neg (by
            simp only [List.mem_cons, not_or]
            exact ⟨fun h => hk h.symm, hmem⟩)]
          rfl

theorem keys_nodup_addToGroups (t : QueueTrack) (gs : List (String × List QueueTrack))
    (h : (gs.map Prod.fst).Nodup) : ((addToGroups gs t).map Prod.fst).Nodup := by
  rw [keys_addToGroups]
  split
  · exact h
  · next hmem =>
      exact List.Nodup.append h (List.nodup_singleton _)
        (List.disjoint_singleton.mpr hmem)

theorem groupByContributor_hom (q : List QueueTrack) :
    GroupsHom (groupByContributor q) := by
  suffices h : ∀ acc, GroupsHom acc → GroupsHom (q.foldl addToGroups acc) by
    exact h [] (fun pg hpg => absurd hpg (List.not_mem_nil pg))
  induction q with
  | nil => exact fun acc h => h
  | cons t q ih =>
      intro acc hacc
      rw [List.foldl_cons]
      exact ih _ (groupsHom_addToGroups t acc hacc)

theorem groupByContributor_keys_nodup (q : List QueueTrack) :
    ((groupByContributor q).map Prod.fst).Nodup := by
  suffices h : ∀ acc, (acc.map Prod.fst).Nodup →
      ((q.foldl addToGroups acc).map Prod.fst).Nodup by
    exact h [] (by simp)
  induction q with
  | nil => exact fun acc h => h
  | cons t q ih =>
      intro acc hacc
      rw [List.foldl_cons]
      exact ih _ (keys_nodup_addToGroups t acc hacc)

theorem filter_tail_eq_self_or_nil {p : QueueTrack → Bool} {g : List QueueTrack}
    (h : g.filter p = g ∨ g.filter p = []) :
    g.tail.filter p = g.tail ∨ g.tail.filter p = [] := by
  rcases h with h | h
  · left
    rw [List.filter_eq_self] at h ⊢
    exact fun x hx => h x (List.mem_of_mem_tail hx)
  · right
    rw [List.filter_eq_nil_iff] at h ⊢
    exact fun x hx => h x (List.mem_of_mem_tail hx)

theorem filter_tail_eq_nil {p : QueueTrack → Bool} {g : List QueueTrack}
    (h : g.filter p = []) : g.tail.filter p = [] := by
  rw [List.filter_eq_nil_iff] at h ⊢
  exact fun x hx => h x (List.mem_of_mem_tail hx)

theorem heads_tails_filter_flatten (p : QueueTrack → Bool)
    (gs : List (List QueueTrack))
    (hall : ∀ g ∈ gs, g.filter p = g ∨ g.filter p = [])
    (hpair : gs.Pairwise (fun g₁ g₂ => g₁.filter p = [] ∨ g₂.filter p = [])) :
    (gs.filterMap List.head?).filter p ++
        ((gs.map List.tail).map (List.filter p)).flatten
      = (gs.map (List.filter p)).flatten := by
  induction gs with
  | nil => rfl
  | cons g gs ih =>
      have hall_gs : ∀ g' ∈ gs, g'.filter p = g' ∨ g'.filter p = [] :=
        fun g' hg' => hall g' (List.mem_cons_of_mem g hg')
      have hpair_gs := hpair.of_cons
      have hg := hall g (List.mem_cons_self g gs)
      cases g with
      | nil => simpa using ih hall_gs hpair_gs
      | cons a g' =>
          have e0 : ((a :: g') :: gs).filterMap List.head? =
              a :: gs.filterMap List.head? := rfl
          rcases hg with hgall | hgnil
          · have hpa : p a = true :=
              List.filter_eq_self.mp hgall a (List.mem_cons_self a g')
            have hg' : g'.filter p = g' := by
              rw [List.filter_eq_self]
              exact fun x hx =>
                List.filter_eq_self.mp hgall x (List.mem_cons_of_mem a hx)
            have hothers : ∀ g₂ ∈ gs, g₂.filter p = [] := by
              intro g₂ hg₂
              rcases (List.pairwise_cons.mp hpair).1 g₂ hg₂ with h | h
              · exfalso
                exact (List.filter_eq_nil_iff.mp h a (List.mem_cons_self a g')) hpa
              · exact h
            have hheads : (gs.filterMap List.head?).filter p = [] := by
              rw [List.filter_eq_nil_iff]
              intro x hx
              obtain ⟨g₂, hg₂, hx2⟩ := List.mem_filterMap.mp hx
              have hmem : x ∈ g₂ := by
                cases g₂ with
                | nil => simp at hx2
                | cons b g₂ =>
                    simp only [List.head?_cons, Option.some.injEq] at hx2
                    subst hx2
                    exact List.mem_cons_self _ _
              exact List.filter_eq_nil_iff.mp (hothers g₂ hg₂) x hmem
            have htails : ((gs.map List.tail).map (List.filter p)).flatten = [] := by
              apply flatten_eq_nil_of_all_empty
              rw [List.all_eq_true]
              intro y hy
              rw [List.map_map] at hy
              obtain ⟨g₂, hg₂, rfl⟩ := List.mem_map.mp hy
              have hnil : (List.filter p ∘ List.tail) g₂ = [] :=
                filter_tail_eq_nil (hothers g₂ hg₂)
              rw [hnil]
              rfl
            have hjoin : (gs.map (List.filter p)).flatten = [] := by
              apply flatten_eq_nil_of_all_empty
              rw [List.all_eq_true]
              intro y hy
              obtain ⟨g₂, hg₂, rfl⟩ := List.mem_map.mp hy
              rw [hothers g₂ hg₂]
              rfl
            rw [e0]
            simp only [List.map_cons, List.tail_cons, List.flatten_cons]
            rw [List.filter_cons_of_pos hpa, hheads, hg', htails, hgall, hjoin]
            simp
          · have hpa : ¬ p a = true :=
              List.filter_eq_nil_iff.mp hgnil a (List.mem_cons_self a g')
            have hg' : g'.filter p = [] := filter_tail_eq_nil (g := a :: g') hgnil
            rw [e0]
            simp only [List.map_cons, List.tail_cons, List.flatten_cons]
            rw [List.filter_cons_of_neg hpa, hgnil, hg']
            simp only [List.nil_append]
            exact ih hall_gs hpair_gs

theorem roundRobin_filter (p : QueueTrack → Bool) (gs : List (List QueueTrack))
    (hall : ∀ g ∈ gs, g.filter p = g ∨ g.filter p = [])
    (hpair : gs.Pairwise (fun g₁ g₂ => g₁.filter p = [] ∨ g₂.filter p = [])) :
    (roundRobin gs).filter p = (gs.map (List.filter p)).flatten := by
  by_cases h : gs.all List.isEmpty = true
  · rw [roundRobin_nil_of_all_empty h]
    symm
    apply flatten_eq_nil_of_all_empty
    rw [List.all_eq_true] at h ⊢
    intro y hy
    obtain ⟨g, hg, rfl⟩ := List.mem_map.mp hy
    have hge : g = [] := by
      have h2 := h g hg
      cases g with
      | nil => rfl
      | cons b g => simp at h2
    rw [hge]
    rfl
  · rw [roundRobin_step h, List.filter_append]
    have hall' : ∀ g ∈ gs.map List.tail, g.filter p = g ∨ g.filter p = [] := by
      intro g hg
      obtain ⟨g₂, hg₂, rfl⟩ := List.mem_map.mp hg
      exact filter_tail_eq_self_or_nil (hall g₂ hg₂)
    have hpair' : (gs.map List.tail).Pairwise
        (fun g₁ g₂ => g₁.filter p = [] ∨ g₂.filter p = []) := by
      rw [List.pairwise_map]
      apply hpair.imp
      intro g₁ g₂ h12
      rcases h12 with h12 | h12
      · exact Or.inl (filter_tail_eq_nil h12)
      · exact Or.inr (filter_tail_eq_nil h12)
    rw [roundRobin_filter p (gs.map List.tail) hall' hpair']
    exact heads_tails_filter_flatten p gs hall hpair
termination_by (gs.map List.length).sum
decreasing_by exact sum_map_length_tail_lt gs h

theorem addToGroups_filter_flatten (c : String) (t : QueueTrack) :
    ∀ gs, GroupsHom gs → ((gs.map Prod.fst).Nodup) →
      ((addToGroups gs t).map
          (fun pg => pg.2.filter (fun x => x.addedById == c))).flatten
        = (gs.map (fun pg => pg.2.filter (fun x => x.addedById == c))).flatten
          ++ [t].filter (fun x => x.addedById == c) := by
  intro gs
  induction gs with
  | nil =>
      intro _ _
      simp [addToGroups]
  | cons pg gs ih =>
      obtain ⟨k, g⟩ := pg
      intro hom hnd
      have hom_gs : GroupsHom gs := fun pg hpg => hom pg (List.mem_cons_of_mem _ hpg)
      have hnd' : k ∉ gs.map Prod.fst ∧ (gs.map Prod.fst).Nodup := by
        rw [List.map_cons, List.nodup_cons] at hnd
        exact hnd
      by_cases hk : k = t.addedById
      · simp only [addToGroups, if_pos hk, List.map_cons, List.flatten_cons]
        rw [List.filter_append]
        by_cases hpt : (t.addedById == c) = true
        · have hkc : k = c := by
            rw [hk]
            simpa using hpt
          have hrest : (gs.map
              (fun pg => pg.2.filter (fun x => x.addedById == c))).flatten = [] := by
            apply flatten_eq_nil_of_all_empty
            rw [List.all_eq_true]
            intro y hy
            obtain ⟨pg, hpg, rfl⟩ := List.mem_map.mp hy
            have hfil : pg.2.filter (fun x => x.addedById == c) = [] := by
              rw [List.filter_eq_nil_iff]
              intro x hx hpx
              have h1 : x.addedById = pg.1 := hom_gs pg hpg x hx
              have h2 : x.addedById = c := by simpa using hpx
              apply hnd'.1
              rw [show k = pg.1 from by rw [hkc, ← h2, h1]]
              exact List.mem_map_of_mem Prod.fst hpg
            rw [hfil]
            rfl
          rw [hrest]
          simp
        · have hemp : [t].filter (fun x => x.addedById == c) = [] := by simp [hpt]
          rw [hemp]
          simp
      · simp only [addToGroups, if_neg hk, List.map_cons, List.flatten_cons]
        rw [ih hom_gs hnd'.2, ← List.append_assoc]

theorem foldl_groups_filter (c : String) (q : List QueueTrack) :
    ∀ acc, GroupsHom acc → (acc.map Prod.fst).Nodup →
      ((q.foldl addToGroups acc).map
          (fun pg => pg.2.filter (fun x => x.addedById == c))).flatten
        = (acc.map (fun pg => pg.2.filter (fun x => x.addedById == c))).flatten
          ++ q.filter (fun x => x.addedById == c) := by
  induction q with
  | nil =>
      intro acc _ _
      simp
  | cons t q ih =>
      intro acc hom hnd
      rw [List.foldl_cons,
        ih (addToGroups acc t) (groupsHom_addToGroups t acc hom)
          (keys_nodup_addToGroups t acc hnd),
        addToGroups_filter_flatten c t acc hom hnd, List.append_assoc]
      congr 1
      by_cases hpt : (t.addedById == c) = true <;> simp [List.filter_cons, hpt]

theorem groupByContributor_filter (c : String) (q : List QueueTrack) :
    ((groupByContributor q).map
        (fun pg => pg.2.filter (fun x => x.addedById == c))).flatten
      = q.filter (fun x => x.addedById == c) := by
  have h := foldl_groups_filter c q []
    (fun pg hpg => absurd hpg (List.not_mem_nil pg)) (by simp)
  simpa [groupByContributor] using h

theorem allOrNone_of_hom {gs : List (String × List QueueTrack)}
    (hom : GroupsHom gs) (c : String) :
    ∀ g ∈ gs.map Prod.snd,
      g.filter (fun x => x.addedById == c) = g ∨
      g.filter (fun x => x.addedById == c) = [] := by
  intro g hg
  obtain ⟨pg, hpg, rfl⟩ := List.mem_map.mp hg
  by_cases hc : pg.1 = c
  · left
    rw [List.filter_eq_self]
    intro x hx
    have hx1 := hom pg hpg x hx
    simp [hx1, hc]
  · right
    rw [List.filter_eq_nil_iff]
    intro x hx
    have hx1 := hom pg hpg x hx
    simp [hx1, hc]

theorem atMostOne_of_hom_nodup {gs : List (String × List QueueTrack)}
    (hom : GroupsHom gs) (hnd : (gs.map Prod.fst).Nodup) (c : String) :
    (gs.map Prod.snd).Pairwise
      (fun g₁ g₂ => g₁.filter (fun x => x.addedById == c) = [] ∨
                    g₂.filter (fun x => x.addedById == c) = []) := by
  rw [List.pairwise_map]
  have hkeys : gs.Pairwise (fun pg₁ pg₂ => pg₁.1 ≠ pg₂.1) := by
    have h2 : (gs.map Prod.fst).Pairwise (· ≠ ·) := hnd
    rw [List.pairwise_map] at h2
    exact h2
  apply List.Pairwise.imp_of_mem _ hkeys
  intro pg₁ pg₂ h1 h2 hne
  by_cases hc : pg₁.1 = c
  · right
    rw [List.filter_eq_nil_iff]
    intro x hx hpx
    have ha : x.addedById = pg₂.1 := hom pg₂ h2 x hx
    have hb : x.addedById = c := by simpa using hpx
    exact hne (by rw [hc, ← hb, ha])
  · left
    rw [List.filter_eq_nil_iff]
    intro x hx hpx
    have ha : x.addedById = pg₁.1 := hom pg₁ h1 x hx
    have hb : x.addedById = c := by simpa using hpx
    exact hc (by rw [← ha, hb])

theorem interleave_filter (q : List QueueTrack) (c : String) :
    (interleaveRoundRobin q).filter (fun t => t.addedById == c) =
      q.filter (fun t => t.addedById == c) := by
  unfold interleaveRoundRobin
  by_cases h1 : q.length ≤ 1
  · rw [if_pos h1]
  · rw [if_neg h1]
    by_cases h2 : (groupByContributor q).length ≤ 1
    · rw [if_pos h2]
    · rw [if_neg h2]
      have hom := groupByContributor_hom q
      have hnd := groupByContributor_keys_nodup q
      rw [roundRobin_filter _ _ (allOrNone_of_hom hom c)
        (atMostOne_of_hom_nodup hom hnd c), List.map_map]
      exact groupByContributor_filter c q

theorem interleave_perm (q : List QueueTrack) : (interleaveRoundRobin q).Perm q := by
  unfold interleaveRoundRobin
  by_cases h1 : q.length ≤ 1
  · rw [if_pos h1]
  · rw [if_neg h1]
    by_cases h2 : (groupByContributor q).length ≤ 1
    · rw [if_pos h2]
    · rw [if_neg h2]
      exact (roundRobin_perm_flatten _).trans (groupByContributor_flatten_perm q)

theorem groupByContributor_short (q : List QueueTrack) (h : q.length ≤ 1) :
    (groupByContributor q).length ≤ 1 := by
  cases q with
  | nil => simp [groupByContributor]
  | cons t q' =>
      cases q' with
      | nil => simp [groupByContributor, addToGroups]
      | cons a b => simp at h

theorem interleave_eq_spec (q : List QueueTrack) :
    interleaveRoundRobin q = interleaveSpec q := by
  unfold interleaveRoundRobin interleaveSpec
  by_cases h1 : q.length ≤ 1
  · rw [if_pos h1, if_pos (by have := groupByContributor_short q h1; omega)]
  · rw [if_neg h1]
    by_cases h2 : (groupByContributor q).length ≤ 1
    · rw [if_pos h2, if_pos (by omega)]
    · rw [if_neg h2, if_neg (by omega)]

/-- Claim C3: the implementation's round-robin interleave coincides with the
reference algorithm from the spec (first-seen contributor groups; fewer than
two contributors is a no-op; otherwise cyclic pulls of the oldest remaining
entry of each non-empty group); in particular the output is a permutation of
the input that preserves each contributor's internal relative order. -/
theorem interleave_correct (q : List QueueTrack) :
    interleaveRoundRobin q = interleaveSpec q ∧
    (interleaveRoundRobin q).Perm q ∧
    ∀ c, (interleaveRoundRobin q).filter (fun t => t.addedById == c) =
      q.filter (fun t => t.addedById == c) :=
  ⟨interleave_eq_spec q, interleave_perm q, fun c => interleave_filter q c⟩

/-! Position-zero pinning. -/

theorem foldl_addToGroups_first (q : List QueueTrack) :
    ∀ (k : String) (x : QueueTrack) (g : List QueueTrack)
      (gs : List (String × List QueueTrack)),
      ∃ g' gs', q.foldl addToGroups ((k, x :: g) :: gs) = (k, x :: g') :: gs' := by
  induction q with
  | nil => exact fun k x g gs => ⟨g, gs, rfl⟩
  | cons t q ih =>
      intro k x g gs
      rw [List.foldl_cons]
      by_cases hk : k = t.addedById
      · have hstep : addToGroups ((k, x :: g) :: gs) t = (k, x :: (g ++ [t])) :: gs := by
          simp [addToGroups, hk]
        rw [hstep]
        exact ih k x (g ++ [t]) gs
      · have hstep : addToGroups ((k, x :: g) :: gs) t =
            (k, x :: g) :: addToGroups gs t := by
          simp [addToGroups, hk]
        rw [hstep]
        exact ih k x g (addToGroups gs t)

theorem groupByContributor_cons_first (t : QueueTrack) (q : List QueueTrack) :
    ∃ g' gs', groupByContributor (t :: q) = (t.addedById, t :: g') :: gs' := by
  unfold groupByContributor
  rw [List.foldl_cons]
  exact foldl_addToGroups_first q t.addedById t [] []

theorem roundRobin_head_cons (x : QueueTrack) (g' : List QueueTrack)
    (gss : List (List QueueTrack)) :
    (roundRobin ((x :: g') :: gss)).head? = some x := by
  have hne : ¬ ((x :: g') :: gss).all List.isEmpty = true := by simp
  rw [roundRobin_step hne]
  simp [List.filterMap_cons]

theorem interleave_head (q : List QueueTrack) :
    (interleaveRoundRobin q).head? = q.head? := by
  unfold interleaveRoundRobin
  by_cases h1 : q.length ≤ 1
  · rw [if_pos h1]
  · rw [if_neg h1]
    by_cases h2 : (groupByContributor q).length ≤ 1
    · rw [if_pos h2]
    · rw [if_neg h2]
      cases q with
      | nil => exact absurd (by simp) h1
      | cons t q' =>
          obtain ⟨g', gs', hg⟩ := groupByContributor_cons_first t q'
          rw [hg]
          simp only [List.map_cons]
          rw [roundRobin_head_cons]
          rfl

theorem head?_set_of_ne (l : List QueueTrack) (i : Nat) (a : QueueTrack)
    (h : i ≠ 0) : (l.set i a).head? = l.head? := by
  rw [List.head?_eq_getElem?, List.head?_eq_getElem?, List.getElem?_set_ne h]

theorem moveTrack_head (q : List QueueTrack) (tid : String) (dir : MoveDirection) :
    (moveTrack q tid dir).head? = q.head? := by
  unfold moveTrack
  cases hfi : q.findIdx? (fun t => t.id == tid) with
  | none => rfl
  | some idx =>
      dsimp only
      by_cases h0 : idx = 0
      · rw [if_pos h0]
      · rw [if_neg h0]
        by_cases h1 : moveTarget idx dir ≤ 0
        · rw [if_pos h1]
        · rw [if_neg h1]
          by_cases h2 : (q.length : Int) ≤ moveTarget idx dir
          · rw [if_pos h2]
          · rw [if_neg h2]
            have htgt : (moveTarget idx dir).toNat ≠ 0 := by
              rw [Ne, Int.toNat_eq_zero]
              omega
            rw [head?_set_of_ne _ _ _ htgt, head?_set_of_ne _ _ _ h0]

/-- Claim C6: for every non-empty queue, the entry occupying position 0 is
still at position 0 after the round-robin interleave, after the vote-resort,
and after any manual move. -/
theorem position_zero_pinned (q : List QueueTrack) (hq : q ≠ []) :
    (interleaveRoundRobin q).head? = q.head? ∧
    (sortByVotes q).head? = q.head? ∧
    ∀ tid dir, (moveTrack q tid dir).head? = q.head? :=
  ⟨interleave_head q, sortByVotes_head q, fun tid dir => moveTrack_head q tid dir⟩

theorem position_zero_pinned_witness :
    (interleaveRoundRobin [trackA, trackB, trackC]).head? =
      ([trackA, trackB, trackC] : List QueueTrack).head? ∧
    (sortByVotes [trackA, trackB, trackC]).head? =
      ([trackA, trackB, trackC] : List QueueTrack).head? ∧
    ∀ tid dir, (moveTrack [trackA, trackB, trackC] tid dir).head? =
      ([trackA, trackB, trackC] : List QueueTrack).head? :=
  position_zero_pinned [trackA, trackB, trackC] (by decide)

theorem applyVote_openFloor_sorted_witness :
    tallyOf ((applyVote [trackA, trackB, trackC] "zzz" "u1" 1
        RoomMode.openFloor).getD 1 default) ≥
      tallyOf ((applyVote [trackA, trackB, trackC] "zzz" "u1" 1
        RoomMode.openFloor).getD 2 default) ∧
    (tallyOf ((applyVote [trackA, trackB, trackC] "zzz" "u1" 1
          RoomMode.openFloor).getD 1 default) =
        tallyOf ((applyVote [trackA, trackB, trackC] "zzz" "u1" 1
          RoomMode.openFloor).getD 2 default) →
      ((applyVote [trackA, trackB, trackC] "zzz" "u1" 1
          RoomMode.openFloor).getD 1 default).addedAt ≤
        ((applyVote [trackA, trackB, trackC] "zzz" "u1" 1
          RoomMode.openFloor).getD 2 default).addedAt) :=
  (applyVote_openFloor_sorted [trackA, trackB, trackC] "zzz" "u1" 1).2 1 2
    (by decide) (by decide) (by decide)

end QueueEngine
